import Mathlib

/-!
Verification of the `xirr` crate: a shallow embedding of `src/lib.rs`.

The numerical code operates on IEEE-754 `f64` values.  We embed it
generically over an abstract scalar type `F` carrying the operations the
source uses (`F64` below), and state the floating-point facts the proofs
need as an explicit law class (`FloatLaws`) whose fields are true
statements about IEEE-754 binary64 arithmetic.  Two concrete executable
models instantiate the interface: `FP` (exact rationals extended with NaN
and signed infinities, with IEEE-like special-value propagation), on which
every theorem is exercised at concrete inputs, and `FR`, which in addition
rounds addition exactly as binary64 does in the binade [2^53, 2^54) and
exhibits the order-dependence of floating-point summation (the stable
sort's tie order is observable through it).

Dates are embedded through the `PaymentDate` trait of the source: a totally
ordered type with a signed day-count operation `days_since`.
-/

/-- Abstract interface for the scalar type (`f64` in the source) with the
operations and literal constants that `src/lib.rs` uses. `blt`/`ble` model
the IEEE comparisons `<` / `<=` (false whenever an operand is NaN). -/
class F64 (F : Type) where
  add : F → F → F
  sub : F → F → F
  mul : F → F → F
  div : F → F → F
  neg : F → F
  abs : F → F
  powf : F → F → F
  ofInt : Int → F
  blt : F → F → Bool
  ble : F → F → Bool
  isNan : F → Bool
  isInfinite : F → Bool
  zero : F
  one : F
  nan : F
  maxError : F
  initialGuess : F
  sweepStart : F
  sweepStep : F
  d365 : F

instance (priority := low) {F : Type} [F64 F] : Add F := ⟨F64.add⟩

instance (priority := low) {F : Type} [F64 F] : Sub F := ⟨F64.sub⟩

instance (priority := low) {F : Type} [F64 F] : Mul F := ⟨F64.mul⟩

instance (priority := low) {F : Type} [F64 F] : Div F := ⟨F64.div⟩

instance (priority := low) {F : Type} [F64 F] : Neg F := ⟨F64.neg⟩

/-- Model of the source's `PaymentDate` trait: a totally ordered copyable
date type with `days_since`, the signed day count from `other` to `self`.
`days_since_self` records that the day count from a date to itself is zero,
which holds for both shipped implementations (jiff and chrono spans). -/
class DateRepr (D : Type) extends LinearOrder D where
  days_since : D → D → Int
  days_since_self : ∀ d : D, days_since d d = 0

/-- Model of `struct Payment`: one cash flow. -/
structure Payment (F D : Type) where
  amount : F
  date : D
deriving DecidableEq

/-- Model of `struct InvalidPaymentsError`. -/
structure InvalidPaymentsError where

/-- The fixed human-readable rendering of `InvalidPaymentsError`. -/
def InvalidPaymentsError.message : String :=
  "negative and positive payments are required"

/-- Model of `const MAX_ERROR: f64 = 1e-10` is the `maxError` field of
`F64`; this is the iteration cap `MAX_COMPUTE_WITH_GUESS_ITERATIONS`. -/
def MAX_COMPUTE_WITH_GUESS_ITERATIONS : Nat := 50

variable {F D : Type}

/-- Model of `fn validate`: requires at least one strictly positive and at
least one strictly negative amount ( `p.amount > 0.0` is the IEEE test
`blt 0.0 p.amount`). -/
def validate [F64 F] (payments : List (Payment F D)) :
    Except InvalidPaymentsError Unit :=
  let positive := payments.any fun p => F64.blt F64.zero p.amount
  let negative := payments.any fun p => F64.blt p.amount F64.zero
  if positive && negative then .ok () else .error ⟨⟩

/-- Model of `fn get_exp`: `p.date.days_since(p0.date) as f64 / 365.0`. -/
def get_exp [F64 F] [DateRepr D] (p p0 : Payment F D) : F :=
  F64.ofInt (DateRepr.days_since p.date p0.date) / F64.d365

/-- The accumulator loop of `fn xirr`, with the epoch payment `payments[0]`
passed explicitly as `p0`. -/
def xirrVal [F64 F] [DateRepr D] (p0 : Payment F D)
    (payments : List (Payment F D)) (rate : F) : F :=
  payments.foldl
    (fun result p =>
      result + p.amount / F64.powf (F64.one + rate) (get_exp p p0))
    F64.zero

/-- Model of `fn xirr`. Indexing `payments[0]` panics on an empty slice;
the panic is modelled by `none`. -/
def xirr [F64 F] [DateRepr D] (payments : List (Payment F D)) (rate : F) :
    Option F :=
  match payments with
  | [] => none
  | p0 :: _ => some (xirrVal p0 payments rate)

/-- The accumulator loop of `fn dxirr`, with the epoch payment passed
explicitly. -/
def dxirrVal [F64 F] [DateRepr D] (p0 : Payment F D)
    (payments : List (Payment F D)) (rate : F) : F :=
  payments.foldl
    (fun result p =>
      result -
        p.amount * get_exp p p0 /
          F64.powf (F64.one + rate) (get_exp p p0 + F64.one))
    F64.zero

/-- Model of `fn dxirr`; `none` models the `payments[0]` panic. -/
def dxirr [F64 F] [DateRepr D] (payments : List (Payment F D)) (rate : F) :
    Option F :=
  match payments with
  | [] => none
  | p0 :: _ => some (dxirrVal p0 payments rate)

/-- One Newton-Raphson update `r - xirr(r) / dxirr(r)` on the non-empty
view headed by `p0`. -/
def newton_step [F64 F] [DateRepr D] (p0 : Payment F D)
    (payments : List (Payment F D)) (r : F) : F :=
  r - xirrVal p0 payments r / dxirrVal p0 payments r

/-- The `for` loop of `fn compute_with_guess`, fuelled by the remaining
iteration count; returns NaN when the budget is exhausted. -/
def cwgLoop [F64 F] [DateRepr D] (payments : List (Payment F D)) :
    Nat → F → F → Option F
  | 0, _, _ => some F64.nan
  | n + 1, r, e =>
    if F64.ble e F64.maxError = true then some r
    else
      match xirr payments r, dxirr payments r with
      | some x, some dx =>
        let r1 := r - x / dx
        cwgLoop payments n r1 (F64.abs (r1 - r))
      | _, _ => none

/-- Model of `fn compute_with_guess`: 50 capped Newton iterations starting
from `guess` with the error seeded to `1.0`. -/
def compute_with_guess [F64 F] [DateRepr D] (payments : List (Payment F D))
    (guess : F) : Option F :=
  cwgLoop payments MAX_COMPUTE_WITH_GUESS_ITERATIONS guess F64.one

/-- The pure Newton loop on a non-empty view: identical to `cwgLoop` except
that the epoch payment is given, so no panic can occur. -/
def cwgPure [F64 F] [DateRepr D] (p0 : Payment F D)
    (payments : List (Payment F D)) : Nat → F → F → F
  | 0, _, _ => F64.nan
  | n + 1, r, e =>
    if F64.ble e F64.maxError = true then r
    else
      let r1 := newton_step p0 payments r
      cwgPure p0 payments n r1 (F64.abs (r1 - r))

/-- The value `compute_with_guess` produces on a non-empty payment view. -/
def cwgVal [F64 F] [DateRepr D] (p0 : Payment F D)
    (payments : List (Payment F D)) (guess : F) : F :=
  cwgPure p0 payments MAX_COMPUTE_WITH_GUESS_ITERATIONS guess F64.one

/-- The comparison `sort_by_key(|p| &p.date)` sorts with. -/
def byDate [F64 F] [DateRepr D] (p q : Payment F D) : Bool :=
  decide (p.date ≤ q.date)

/-- The `while` loop of `fn compute` sweeping fallback guesses.  The fuel
`200` strictly exceeds the number of iterations the loop can make: the
guard `guess < 1.0` fails after 199 increments (law `sweep_stop`), so the
fuel-exhaustion branch is unreachable from `compute`. -/
def sweepLoop [F64 F] [DateRepr D] (sorted : List (Payment F D)) :
    Nat → F → F → Option F
  | 0, _, rate => some rate
  | fuel + 1, guess, rate =>
    if (F64.blt guess F64.one && (F64.isNan rate || F64.isInfinite rate)) =
        true then
      match compute_with_guess sorted guess with
      | none => none
      | some r => sweepLoop sorted fuel (guess + F64.sweepStep) r
    else some rate

/-- Model of `fn compute`: validate, sort date-ascending (stable), solve
with initial guess 0.1, then sweep fallback guesses from -0.99 by 0.01
while the result is NaN or infinite and the guess is below 1.0. -/
def compute [F64 F] [DateRepr D] (payments : List (Payment F D)) :
    Option (Except InvalidPaymentsError F) :=
  match validate payments with
  | .error e => some (.error e)
  | .ok _ =>
    let sorted := payments.mergeSort byDate
    match compute_with_guess sorted F64.initialGuess with
    | none => none
    | some rate =>
      match sweepLoop sorted 200 F64.sweepStart rate with
      | none => none
      | some r => some (.ok r)

/-- The Newton iterate sequence `r_n` started at `guess` (`r_0 = guess`). -/
def newtonIter [F64 F] [DateRepr D] (p0 : Payment F D)
    (payments : List (Payment F D)) (guess : F) : Nat → F
  | 0 => guess
  | n + 1 => newton_step p0 payments (newtonIter p0 payments guess n)

/-- The error value the solver's loop holds at the start of iteration `n`:
`1.0` initially, afterwards `|r_n - r_{n-1}|`. -/
def errAt [F64 F] [DateRepr D] (p0 : Payment F D)
    (payments : List (Payment F D)) (guess : F) : Nat → F
  | 0 => F64.one
  | n + 1 =>
    F64.abs (newtonIter p0 payments guess (n + 1) -
      newtonIter p0 payments guess n)

/-- The `k`-th guess the fallback sweep tries: `-0.99` incremented `k`
times by `0.01` (in the scalar's own arithmetic). -/
def guessAt [F64 F] (k : Nat) : F :=
  (fun g => g + F64.sweepStep)^[k] F64.sweepStart

/-- The pure value of the fallback sweep on a non-empty view: identical to
`sweepLoop` except that the epoch payment is given, so no panic occurs. -/
def sweepCore [F64 F] [DateRepr D] (p0 : Payment F D)
    (payments : List (Payment F D)) : Nat → F → F → F
  | 0, _, rate => rate
  | fuel + 1, guess, rate =>
    if (F64.blt guess F64.one && (F64.isNan rate || F64.isInfinite rate)) =
        true then
      sweepCore p0 payments fuel (guess + F64.sweepStep)
        (cwgVal p0 payments guess)
    else rate

/-- Instrumented `cwgLoop` also counting the Newton updates performed. -/
def cwgLoopC [F64 F] [DateRepr D] (payments : List (Payment F D)) :
    Nat → F → F → Option F × Nat
  | 0, _, _ => (some F64.nan, 0)
  | n + 1, r, e =>
    if F64.ble e F64.maxError = true then (some r, 0)
    else
      match xirr payments r, dxirr payments r with
      | some x, some dx =>
        let r1 := r - x / dx
        let q := cwgLoopC payments n r1 (F64.abs (r1 - r))
        (q.1, q.2 + 1)
      | _, _ => (none, 1)

/-- Instrumented `compute_with_guess` counting Newton updates. -/
def compute_with_guessC [F64 F] [DateRepr D]
    (payments : List (Payment F D)) (guess : F) : Option F × Nat :=
  cwgLoopC payments MAX_COMPUTE_WITH_GUESS_ITERATIONS guess F64.one

/-- Instrumented `sweepLoop` counting solver invocations. -/
def sweepLoopC [F64 F] [DateRepr D] (sorted : List (Payment F D)) :
    Nat → F → F → Option F × Nat
  | 0, _, rate => (some rate, 0)
  | fuel + 1, guess, rate =>
    if (F64.blt guess F64.one && (F64.isNan rate || F64.isInfinite rate)) =
        true then
      match compute_with_guess sorted guess with
      | none => (none, 1)
      | some r =>
        let q := sweepLoopC sorted fuel (guess + F64.sweepStep) r
        (q.1, q.2 + 1)
    else (some rate, 0)

/-- Instrumented `compute` counting solver invocations. -/
def computeC [F64 F] [DateRepr D] (payments : List (Payment F D)) :
    Option (Except InvalidPaymentsError F) × Nat :=
  match validate payments with
  | .error e => (some (.error e), 0)
  | .ok _ =>
    let sorted := payments.mergeSort byDate
    match compute_with_guess sorted F64.initialGuess with
    | none => (none, 1)
    | some rate =>
      let q := sweepLoopC sorted 200 F64.sweepStart rate
      match q.1 with
      | none => (none, q.2 + 1)
      | some r => (some (.ok r), q.2 + 1)

/-- The earliest date among `p0 :: rest`, as the spec's "earliest payment's
date" (independent of the list order). -/
def earliest [DateRepr D] (p0 : Payment F D)
    (rest : List (Payment F D)) : D :=
  rest.foldl (fun d p => min d p.date) p0.date

/-- The spec's NPV formula (section 4.2): the sum over all payments of
`amount_i / (1 + r)^(t_i)` with `t_i` the day count from the earliest
payment's date divided by 365. -/
def npvSpec [F64 F] [DateRepr D] (d0 : D) (payments : List (Payment F D))
    (r : F) : F :=
  payments.foldl
    (fun acc p =>
      acc +
        p.amount /
          F64.powf (F64.one + r)
            (F64.ofInt (DateRepr.days_since p.date d0) / F64.d365))
    F64.zero

/-- The spec's derivative formula (section 4.3): the sum over all payments
of `-amount_i * t_i / (1 + r)^(t_i + 1)`. -/
def dnpvSpec [F64 F] [DateRepr D] (d0 : D) (payments : List (Payment F D))
    (r : F) : F :=
  payments.foldl
    (fun acc p =>
      acc +
        -(p.amount * (F64.ofInt (DateRepr.days_since p.date d0) / F64.d365) /
            F64.powf (F64.one + r)
              ((F64.ofInt (DateRepr.days_since p.date d0) / F64.d365) +
                F64.one)))
    F64.zero

/-- Floating-point facts used by the proofs; every field is a true
statement about IEEE-754 binary64 arithmetic with the source's literal
constants (1e-10, 0.1, -0.99, 0.01, 1.0, 365.0). `sweep_stop` and
`sweep_go` record that the accumulated f64 guess `-0.99 + k * 0.01` first
reaches `>= 1.0` at exactly `k = 199` (the 199th accumulated sum is
`1.0000000000000013`). -/
class FloatLaws (F : Type) [F64 F] : Prop where
  one_not_le_maxError : F64.ble (F64.one : F) F64.maxError = false
  isNan_nan : F64.isNan (F64.nan : F) = true
  isInfinite_nan : F64.isInfinite (F64.nan : F) = false
  inf_not_small :
    ∀ x y : F, F64.isInfinite x = true →
      F64.ble (F64.abs (x - y)) F64.maxError = false
  sub_eq_add_neg : ∀ x y : F, x - y = x + -y
  powf_zero : ∀ x : F, F64.powf x F64.zero = F64.one
  div_one : ∀ x : F, x / F64.one = x
  zero_div_d365 : (F64.zero : F) / F64.d365 = F64.zero
  ofInt_zero : (F64.ofInt 0 : F) = F64.zero
  nan_not_gt_zero :
    ∀ x : F, F64.isNan x = true → F64.blt F64.zero x = false
  nan_not_lt_zero :
    ∀ x : F, F64.isNan x = true → F64.blt x F64.zero = false
  sweep_stop : F64.blt (guessAt 199 : F) F64.one = false
  sweep_go : ∀ k : Nat, k < 199 → F64.blt (guessAt k : F) F64.one = true

/-- Concrete executable scalar model: exact rationals extended with NaN and
signed infinities, with IEEE-like special-value propagation.  `inf true`
is negative infinity.  The transcendental core of `powf` is outside exact
arithmetic; `powv` computes exactly on integer exponents and otherwise
propagates NaN, which satisfies every `FloatLaws` field. -/
inductive FP where
  | nan : FP
  | inf : Bool → FP
  | fin : ℚ → FP
deriving DecidableEq

/-- Addition on `FP`. -/
def FP.addv : FP → FP → FP
  | .nan, _ => .nan
  | .inf _, .nan => .nan
  | .fin _, .nan => .nan
  | .inf s, .inf t => if s = t then .inf s else .nan
  | .inf s, .fin _ => .inf s
  | .fin _, .inf t => .inf t
  | .fin a, .fin b => .fin (a + b)

/-- Negation on `FP`. -/
def FP.negv : FP → FP
  | .nan => .nan
  | .inf s => .inf (!s)
  | .fin a => .fin (-a)

/-- Subtraction on `FP` (IEEE subtraction is addition of the negation). -/
def FP.subv (x y : FP) : FP := FP.addv x (FP.negv y)

/-- Multiplication on `FP`. -/
def FP.mulv : FP → FP → FP
  | .nan, _ => .nan
  | .inf _, .nan => .nan
  | .fin _, .nan => .nan
  | .inf s, .inf t => .inf (s != t)
  | .inf s, .fin b => if b = 0 then .nan else .inf (s != decide (b < 0))
  | .fin a, .inf t => if a = 0 then .nan else .inf (decide (a < 0) != t)
  | .fin a, .fin b => .fin (a * b)

/-- Division on `FP`. -/
def FP.divv : FP → FP → FP
  | .nan, _ => .nan
  | .inf _, .nan => .nan
  | .fin _, .nan => .nan
  | .inf _, .inf _ => .nan
  | .inf s, .fin b => .inf (s != decide (b < 0))
  | .fin _, .inf _ => .fin 0
  | .fin a, .fin b =>
    if b = 0 then (if a = 0 then .nan else .inf (decide (a < 0)))
    else .fin (a / b)

/-- Absolute value on `FP`. -/
def FP.absv : FP → FP
  | .nan => .nan
  | .inf _ => .inf false
  | .fin a => .fin |a|

/-- Power on `FP`: exact on integer exponents, `1` on a zero exponent for
every base (as IEEE `pow`), NaN elsewhere. -/
def FP.powv (x y : FP) : FP :=
  if y = .fin 0 then .fin 1
  else
    match x, y with
    | .fin a, .fin b =>
      if b.den = 1 then
        if a = 0 ∧ b < 0 then .inf false else .fin (a ^ b.num)
      else .nan
    | _, _ => .nan

/-- IEEE `<` on `FP` (false whenever an operand is NaN). -/
def FP.bltv : FP → FP → Bool
  | .nan, _ => false
  | .inf _, .nan => false
  | .fin _, .nan => false
  | .inf s, .inf t => s && !t
  | .inf s, .fin _ => s
  | .fin _, .inf t => !t
  | .fin a, .fin b => decide (a < b)

/-- IEEE `<=` on `FP` (false whenever an operand is NaN). -/
def FP.blev : FP → FP → Bool
  | .nan, _ => false
  | .inf _, .nan => false
  | .fin _, .nan => false
  | .inf s, .inf t => s || !t
  | .inf s, .fin _ => s
  | .fin _, .inf t => !t
  | .fin a, .fin b => decide (a ≤ b)

/-- NaN test on `FP`. -/
def FP.isNanv : FP → Bool
  | .nan => true
  | _ => false

/-- Infinity test on `FP`. -/
def FP.isInfv : FP → Bool
  | .inf _ => true
  | _ => false

instance : F64 FP where
  add := FP.addv
  sub := FP.subv
  mul := FP.mulv
  div := FP.divv
  neg := FP.negv
  abs := FP.absv
  powf := FP.powv
  ofInt := fun n => .fin n
  blt := FP.bltv
  ble := FP.blev
  isNan := FP.isNanv
  isInfinite := FP.isInfv
  zero := .fin 0
  one := .fin 1
  nan := .nan
  maxError := .fin (1 / 10 ^ 10)
  initialGuess := .fin (1 / 10)
  sweepStart := .fin (-(99 / 100))
  sweepStep := .fin (1 / 100)
  d365 := .fin 365

instance : DateRepr Int where
  days_since := fun a b => a - b
  days_since_self := by intro d; show d - d = 0; omega

instance : FloatLaws FP where
  one_not_le_maxError := by
    show FP.blev (.fin 1) (.fin (1 / 10 ^ 10)) = false
    simp [FP.blev]
    norm_num
  isNan_nan := rfl
  isInfinite_nan := rfl
  inf_not_small := by
    intro x y hx
    cases x with
    | nan => exact Bool.noConfusion hx
    | fin a => exact Bool.noConfusion hx
    | inf s =>
      show FP.blev (FP.absv (FP.subv (.inf s) y)) (.fin (1 / 10 ^ 10)) =
        false
      cases y with
      | nan => rfl
      | inf t =>
        simp only [FP.subv, FP.negv, FP.addv]
        split_ifs <;> rfl
      | fin b => rfl
  sub_eq_add_neg := fun _ _ => rfl
  powf_zero := by
    intro x
    show FP.powv x (.fin 0) = .fin 1
    simp [FP.powv]
  div_one := by
    intro x
    show FP.divv x (.fin 1) = x
    cases x with
    | nan => rfl
    | inf s => cases s <;> rfl
    | fin a => norm_num [FP.divv]
  zero_div_d365 := by
    show FP.divv (.fin 0) (.fin 365) = .fin 0
    norm_num [FP.divv]
  ofInt_zero := by
    show FP.fin ((0 : Int) : ℚ) = .fin 0
    norm_num
  nan_not_gt_zero := by
    intro x hx
    cases x with
    | nan => rfl
    | inf s => exact Bool.noConfusion hx
    | fin a => exact Bool.noConfusion hx
  nan_not_lt_zero := by
    intro x hx
    cases x with
    | nan => rfl
    | inf s => exact Bool.noConfusion hx
    | fin a => exact Bool.noConfusion hx
  sweep_stop := by
    have hval : ∀ k : Nat,
        (guessAt k : FP) = .fin (-(99 / 100) + k * (1 / 100)) := by
      intro k
      induction k with
      | zero =>
        show FP.fin (-(99 / 100)) = _
        norm_num
      | succ n ih =>
        rw [guessAt, Function.iterate_succ_apply']
        have h : ((fun (g : FP) => g + F64.sweepStep)^[n] F64.sweepStart) =
            (guessAt n : FP) := rfl
        rw [h, ih]
        show FP.addv _ _ = _
        simp only [FP.addv, FP.fin.injEq]
        push_cast
        ring
    rw [show (F64.blt : FP → FP → Bool) = FP.bltv from rfl, hval]
    show FP.bltv _ (.fin 1) = false
    simp only [FP.bltv, decide_eq_false_iff_not, not_lt]
    norm_num
  sweep_go := by
    have hval : ∀ k : Nat,
        (guessAt k : FP) = .fin (-(99 / 100) + k * (1 / 100)) := by
      intro k
      induction k with
      | zero =>
        show FP.fin (-(99 / 100)) = _
        norm_num
      | succ n ih =>
        rw [guessAt, Function.iterate_succ_apply']
        have h : ((fun (g : FP) => g + F64.sweepStep)^[n] F64.sweepStart) =
            (guessAt n : FP) := rfl
        rw [h, ih]
        show FP.addv _ _ = _
        simp only [FP.addv, FP.fin.injEq]
        push_cast
        ring
    intro k hk
    rw [show (F64.blt : FP → FP → Bool) = FP.bltv from rfl, hval]
    show FP.bltv _ (.fin 1) = true
    simp only [FP.bltv, decide_eq_true_eq]
    have hq : (k : ℚ) ≤ 198 := by
      have : k ≤ 198 := by omega
      exact_mod_cast this
    linarith

/-- Round-to-nearest-even at double precision for integer values in the
binade [2^53, 2^54), where the binary64 ulp is 2: an odd integer there is
a tie between its two even neighbours and rounds to the one whose
significand (half) is even.  Values outside this binade, and
non-integers, are returned exactly. -/
def fl53 (q : ℚ) : ℚ :=
  if q.den = 1 ∧ 2 ^ 53 ≤ q.num.natAbs ∧ q.num.natAbs < 2 ^ 54 then
    if q.num % 2 = 0 then q
    else if (q.num - 1) % 4 = 0 then ((q.num - 1 : Int) : ℚ)
    else ((q.num + 1 : Int) : ℚ)
  else q

/-- A second scalar model: a wrapper around `FP` whose addition rounds as
binary64 does in the binade [2^53, 2^54).  On the amounts of the
order-dependence counterexample below this reproduces the exact binary64
behaviour of `f64` addition (`2^53 + 1` rounds back to `2^53`), making
the stable sort's tie order observable in the NPV fold.  A distinct
structure (not a type synonym) so that instance resolution can never fall
back to the exact `FP` arithmetic. -/
structure FR where
  val : FP
deriving DecidableEq

/-- Addition on `FR`: exact addition followed by binade-[2^53, 2^54)
rounding. -/
def FR.addv (x y : FR) : FR :=
  ⟨match FP.addv x.val y.val with
    | .fin q => .fin (fl53 q)
    | z => z⟩

instance : F64 FR where
  add := FR.addv
  sub := fun x y => FR.addv x ⟨FP.negv y.val⟩
  mul := fun x y => ⟨FP.mulv x.val y.val⟩
  div := fun x y => ⟨FP.divv x.val y.val⟩
  neg := fun x => ⟨FP.negv x.val⟩
  abs := fun x => ⟨FP.absv x.val⟩
  powf := fun x y => ⟨FP.powv x.val y.val⟩
  ofInt := fun n => ⟨FP.fin n⟩
  blt := fun x y => FP.bltv x.val y.val
  ble := fun x y => FP.blev x.val y.val
  isNan := fun x => FP.isNanv x.val
  isInfinite := fun x => FP.isInfv x.val
  zero := ⟨FP.fin 0⟩
  one := ⟨FP.fin 1⟩
  nan := ⟨FP.nan⟩
  maxError := ⟨FP.fin (1 / 10 ^ 10)⟩
  initialGuess := ⟨FP.fin (1 / 10)⟩
  sweepStart := ⟨FP.fin (-(99 / 100))⟩
  sweepStep := ⟨FP.fin (1 / 100)⟩
  d365 := ⟨FP.fin 365⟩

instance : FloatLaws FR where
  one_not_le_maxError := by
    show FP.blev (.fin 1) (.fin (1 / 10 ^ 10)) = false
    simp [FP.blev]
    norm_num
  isNan_nan := rfl
  isInfinite_nan := rfl
  inf_not_small := by
    intro x y hx
    obtain ⟨xv⟩ := x
    obtain ⟨yv⟩ := y
    cases xv with
    | nan => exact Bool.noConfusion hx
    | fin a => exact Bool.noConfusion hx
    | inf s =>
      show FP.blev
        (FP.absv ((FR.addv ⟨.inf s⟩ ⟨FP.negv yv⟩).val))
        (.fin (1 / 10 ^ 10)) = false
      cases yv with
      | nan => rfl
      | inf t =>
        simp only [FP.negv, FR.addv, FP.addv]
        split_ifs <;> rfl
      | fin b => rfl
  sub_eq_add_neg := fun _ _ => rfl
  powf_zero := by
    intro x
    show FR.mk (FP.powv x.val (.fin 0)) = ⟨.fin 1⟩
    rw [FR.mk.injEq]
    simp [FP.powv]
  div_one := by
    intro x
    obtain ⟨xv⟩ := x
    show FR.mk (FP.divv xv (.fin 1)) = ⟨xv⟩
    rw [FR.mk.injEq]
    cases xv with
    | nan => rfl
    | inf s => cases s <;> rfl
    | fin a => norm_num [FP.divv]
  zero_div_d365 := by
    show FR.mk (FP.divv (.fin 0) (.fin 365)) = ⟨.fin 0⟩
    rw [FR.mk.injEq]
    norm_num [FP.divv]
  ofInt_zero := by
    show FR.mk (FP.fin ((0 : Int) : ℚ)) = ⟨.fin 0⟩
    rw [FR.mk.injEq]
    norm_num
  nan_not_gt_zero := by
    intro x hx
    obtain ⟨xv⟩ := x
    cases xv with
    | nan => rfl
    | inf s => exact Bool.noConfusion hx
    | fin a => exact Bool.noConfusion hx
  nan_not_lt_zero := by
    intro x hx
    obtain ⟨xv⟩ := x
    cases xv with
    | nan => rfl
    | inf s => exact Bool.noConfusion hx
    | fin a => exact Bool.noConfusion hx
  sweep_stop := by
    have hfl : ∀ q : ℚ, |q| < 2 ^ 53 → fl53 q = q := by
      intro q hq
      unfold fl53
      split_ifs with hc h2 h4
      · rfl
      · exfalso
        obtain ⟨hd, hlo, _⟩ := hc
        have hqn : ((q.num : ℚ)) = q := (Rat.den_eq_one_iff q).mp hd
        have hcast : ((q.num.natAbs : ℚ)) = |(q.num : ℚ)| := by
          rw [Int.cast_natAbs, Int.cast_abs]
        have hge : (2 : ℚ) ^ 53 ≤ |q| := by
          rw [← hqn, ← hcast]
          exact_mod_cast hlo
        linarith
      · exfalso
        obtain ⟨hd, hlo, _⟩ := hc
        have hqn : ((q.num : ℚ)) = q := (Rat.den_eq_one_iff q).mp hd
        have hcast : ((q.num.natAbs : ℚ)) = |(q.num : ℚ)| := by
          rw [Int.cast_natAbs, Int.cast_abs]
        have hge : (2 : ℚ) ^ 53 ≤ |q| := by
          rw [← hqn, ← hcast]
          exact_mod_cast hlo
        linarith
      · rfl
    have hval : ∀ k : Nat, k ≤ 199 →
        (guessAt k : FR) = ⟨FP.fin (-(99 / 100) + k * (1 / 100))⟩ := by
      intro k
      induction k with
      | zero =>
        intro _
        show FR.mk (FP.fin (-(99 / 100))) = _
        rw [FR.mk.injEq, FP.fin.injEq]
        norm_num
      | succ n ih =>
        intro hn
        rw [guessAt, Function.iterate_succ_apply']
        have h : ((fun (g : FR) => g + F64.sweepStep)^[n] F64.sweepStart) =
            (guessAt n : FR) := rfl
        rw [h, ih (by omega)]
        show FR.addv ⟨FP.fin _⟩ ⟨FP.fin (1 / 100)⟩ = _
        simp only [FR.addv, FP.addv]
        have hb : |(-(99 / 100) + (n : ℚ) * (1 / 100)) + 1 / 100| <
            2 ^ 53 := by
          have hn' : (n : ℚ) ≤ 198 := by
            have : n ≤ 198 := by omega
            exact_mod_cast this
          have hn0 : (0 : ℚ) ≤ (n : ℚ) := Nat.cast_nonneg n
          rw [abs_lt]
          constructor <;> nlinarith
        rw [hfl _ hb, FR.mk.injEq, FP.fin.injEq]
        push_cast
        ring
    rw [hval 199 le_rfl]
    show FP.bltv _ (.fin 1) = false
    simp only [FP.bltv, decide_eq_false_iff_not, not_lt]
    norm_num
  sweep_go := by
    have hfl : ∀ q : ℚ, |q| < 2 ^ 53 → fl53 q = q := by
      intro q hq
      unfold fl53
      split_ifs with hc h2 h4
      · rfl
      · exfalso
        obtain ⟨hd, hlo, _⟩ := hc
        have hqn : ((q.num : ℚ)) = q := (Rat.den_eq_one_iff q).mp hd
        have hcast : ((q.num.natAbs : ℚ)) = |(q.num : ℚ)| := by
          rw [Int.cast_natAbs, Int.cast_abs]
        have hge : (2 : ℚ) ^ 53 ≤ |q| := by
          rw [← hqn, ← hcast]
          exact_mod_cast hlo
        linarith
      · exfalso
        obtain ⟨hd, hlo, _⟩ := hc
        have hqn : ((q.num : ℚ)) = q := (Rat.den_eq_one_iff q).mp hd
        have hcast : ((q.num.natAbs : ℚ)) = |(q.num : ℚ)| := by
          rw [Int.cast_natAbs, Int.cast_abs]
        have hge : (2 : ℚ) ^ 53 ≤ |q| := by
          rw [← hqn, ← hcast]
          exact_mod_cast hlo
        linarith
      · rfl
    have hval : ∀ k : Nat, k ≤ 199 →
        (guessAt k : FR) = ⟨FP.fin (-(99 / 100) + k * (1 / 100))⟩ := by
      intro k
      induction k with
      | zero =>
        intro _
        show FR.mk (FP.fin (-(99 / 100))) = _
        rw [FR.mk.injEq, FP.fin.injEq]
        norm_num
      | succ n ih =>
        intro hn
        rw [guessAt, Function.iterate_succ_apply']
        have h : ((fun (g : FR) => g + F64.sweepStep)^[n] F64.sweepStart) =
            (guessAt n : FR) := rfl
        rw [h, ih (by omega)]
        show FR.addv ⟨FP.fin _⟩ ⟨FP.fin (1 / 100)⟩ = _
        simp only [FR.addv, FP.addv]
        have hb : |(-(99 / 100) + (n : ℚ) * (1 / 100)) + 1 / 100| <
            2 ^ 53 := by
          have hn' : (n : ℚ) ≤ 198 := by
            have : n ≤ 198 := by omega
            exact_mod_cast this
          have hn0 : (0 : ℚ) ≤ (n : ℚ) := Nat.cast_nonneg n
          rw [abs_lt]
          constructor <;> nlinarith
        rw [hfl _ hb, FR.mk.injEq, FP.fin.injEq]
        push_cast
        ring
    intro k hk
    rw [hval k (by omega)]
    show FP.bltv _ (.fin 1) = true
    simp only [FP.bltv, decide_eq_true_eq]
    have hq : (k : ℚ) ≤ 198 := by
      have : k ≤ 198 := by omega
      exact_mod_cast this
    linarith

/-- First ordering of the counterexample collection: the two same-date
amounts `2^53` and `-2^53` are adjacent, so the NPV fold cancels them
before adding `1`, giving `NPV(r) = 4 - 8/(1+r)` (root `r = 1`). -/
def tiePermA : List (Payment FR Int) :=
  [⟨⟨FP.fin (2 ^ 53)⟩, 0⟩, ⟨⟨FP.fin (-(2 ^ 53))⟩, 0⟩, ⟨⟨FP.fin 1⟩, 0⟩,
    ⟨⟨FP.fin 3⟩, 0⟩, ⟨⟨FP.fin (-8)⟩, 365⟩]

/-- Second ordering: the same multiset with the same-date payments `-2^53`
and `1` swapped.  Now the fold computes `(2^53 + 1) - 2^53`, and
`2^53 + 1` rounds back to `2^53` in binary64, so the `1` is absorbed and
`NPV(r) = 3 - 8/(1+r)` (root `r = 5/3`). -/
def tiePermB : List (Payment FR Int) :=
  [⟨⟨FP.fin (2 ^ 53)⟩, 0⟩, ⟨⟨FP.fin 1⟩, 0⟩, ⟨⟨FP.fin (-(2 ^ 53))⟩, 0⟩,
    ⟨⟨FP.fin 3⟩, 0⟩, ⟨⟨FP.fin (-8)⟩, 365⟩]


theorem FP.add_def (x y : FP) : x + y = FP.addv x y := rfl

theorem FP.sub_def (x y : FP) : x - y = FP.subv x y := rfl

theorem FP.mul_def (x y : FP) : x * y = FP.mulv x y := rfl

theorem FP.div_def (x y : FP) : x / y = FP.divv x y := rfl

theorem FP.neg_def (x : FP) : -x = FP.negv x := rfl

theorem perm_any_eq {α : Type} (f : α → Bool) {l1 l2 : List α}
    (h : List.Perm l1 l2) : l1.any f = l2.any f := by
  induction h with
  | nil => rfl
  | cons x _ ih => simp [List.any_cons, ih]
  | swap x y l =>
    simp only [List.any_cons]
    cases f x <;> cases f y <;> simp
  | trans _ _ ih1 ih2 => exact ih1.trans ih2

theorem validate_perm {F D : Type} [F64 F] {l1 l2 : List (Payment F D)}
    (h : List.Perm l1 l2) : validate l1 = validate l2 := by
  simp only [validate]
  rw [perm_any_eq _ h, perm_any_eq _ h]

theorem validate_ok_iff {F D : Type} [F64 F]
    (payments : List (Payment F D)) :
    validate payments = .ok () ↔
      ((payments.any fun p => F64.blt F64.zero p.amount) = true ∧
        (payments.any fun p => F64.blt p.amount F64.zero) = true) := by
  simp only [validate]
  by_cases hp : (payments.any fun p => F64.blt F64.zero p.amount) = true <;>
    by_cases hn : (payments.any fun p => F64.blt p.amount F64.zero) = true <;>
    simp only [Bool.not_eq_true] at hp hn <;>
    simp [hp, hn]

theorem validate_error_iff {F D : Type} [F64 F]
    (payments : List (Payment F D)) :
    validate payments = .error ⟨⟩ ↔
      ¬((payments.any fun p => F64.blt F64.zero p.amount) = true ∧
        (payments.any fun p => F64.blt p.amount F64.zero) = true) := by
  simp only [validate]
  by_cases hp : (payments.any fun p => F64.blt F64.zero p.amount) = true <;>
    by_cases hn : (payments.any fun p => F64.blt p.amount F64.zero) = true <;>
    simp only [Bool.not_eq_true] at hp hn <;>
    simp [hp, hn]

theorem ne_nil_of_any {α : Type} {l : List α} {f : α → Bool}
    (h : l.any f = true) : l ≠ [] := by
  cases l <;> simp_all

theorem xirr_cons {F D : Type} [F64 F] [DateRepr D] (p0 : Payment F D)
    (rest : List (Payment F D)) (rate : F) :
    xirr (p0 :: rest) rate = some (xirrVal p0 (p0 :: rest) rate) := rfl

theorem dxirr_cons {F D : Type} [F64 F] [DateRepr D] (p0 : Payment F D)
    (rest : List (Payment F D)) (rate : F) :
    dxirr (p0 :: rest) rate = some (dxirrVal p0 (p0 :: rest) rate) := rfl

theorem cwgLoop_cons {F D : Type} [F64 F] [DateRepr D] (p0 : Payment F D)
    (rest : List (Payment F D)) :
    ∀ (n : Nat) (r e : F),
      cwgLoop (p0 :: rest) n r e = some (cwgPure p0 (p0 :: rest) n r e) := by
  intro n
  induction n with
  | zero => intro r e; rfl
  | succ n ih =>
    intro r e
    by_cases h : F64.ble e F64.maxError = true
    · simp [cwgLoop, cwgPure, h]
    · simp only [cwgLoop, cwgPure, h, if_false, xirr_cons, dxirr_cons]
      exact ih _ _

theorem compute_with_guess_cons {F D : Type} [F64 F] [DateRepr D]
    (p0 : Payment F D) (rest : List (Payment F D)) (g : F) :
    compute_with_guess (p0 :: rest) g = some (cwgVal p0 (p0 :: rest) g) :=
  cwgLoop_cons p0 rest _ _ _

theorem sweepLoop_cons {F D : Type} [F64 F] [DateRepr D] (p0 : Payment F D)
    (rest : List (Payment F D)) :
    ∀ (fuel : Nat) (g r : F),
      sweepLoop (p0 :: rest) fuel g r =
        some (sweepCore p0 (p0 :: rest) fuel g r) := by
  intro fuel
  induction fuel with
  | zero => intro g r; rfl
  | succ n ih =>
    intro g r
    by_cases h :
        (F64.blt g F64.one && (F64.isNan r || F64.isInfinite r)) = true
    · simp only [sweepLoop, sweepCore, h, if_true, compute_with_guess_cons]
      exact ih _ _
    · simp [sweepLoop, sweepCore, h]

theorem compute_of_validate_error {F D : Type} [F64 F] [DateRepr D]
    {payments : List (Payment F D)}
    (h : validate payments = .error ⟨⟩) :
    compute payments = some (.error ⟨⟩) := by
  simp only [compute, h]

theorem mergeSort_ne_nil {α : Type} (le : α → α → Bool) {l : List α}
    (h : l ≠ []) : l.mergeSort le ≠ [] := by
  intro hc
  apply h
  have hp := List.mergeSort_perm l le
  rw [hc] at hp
  exact hp.symm.eq_nil

theorem compute_eq_core {F D : Type} [F64 F] [DateRepr D]
    {payments : List (Payment F D)} {q0 : Payment F D}
    {qrest : List (Payment F D)}
    (hv : validate payments = .ok ())
    (hs : payments.mergeSort byDate = q0 :: qrest) :
    compute payments =
      some (.ok (sweepCore q0 (q0 :: qrest) 200 F64.sweepStart
        (cwgVal q0 (q0 :: qrest) F64.initialGuess))) := by
  simp only [compute, hv, hs, compute_with_guess_cons, sweepLoop_cons]

/-- Claim C1: `compute` returns `Err(InvalidPaymentsError)` exactly when
the input lacks a strictly positive amount or lacks a strictly negative
amount, and returns `Ok` for every collection containing at least one
amount greater than zero and one less than zero; the error outcome is
decided by validation alone. -/
theorem compute_err_iff_missing_sign {F D : Type} [F64 F] [DateRepr D]
    (payments : List (Payment F D)) :
    (compute payments = some (.error ⟨⟩) ↔
      ¬((∃ p ∈ payments, F64.blt F64.zero p.amount = true) ∧
        (∃ p ∈ payments, F64.blt p.amount F64.zero = true))) ∧
    (((∃ p ∈ payments, F64.blt F64.zero p.amount = true) ∧
        (∃ p ∈ payments, F64.blt p.amount F64.zero = true)) →
      ∃ v : F, compute payments = some (.ok v)) := by
  have hex :
      (((payments.any fun p => F64.blt F64.zero p.amount) = true ∧
        (payments.any fun p => F64.blt p.amount F64.zero) = true)) ↔
      ((∃ p ∈ payments, F64.blt F64.zero p.amount = true) ∧
        (∃ p ∈ payments, F64.blt p.amount F64.zero = true)) := by
    simp [List.any_eq_true]
  have hok : ((∃ p ∈ payments, F64.blt F64.zero p.amount = true) ∧
        (∃ p ∈ payments, F64.blt p.amount F64.zero = true)) →
      ∃ v : F, compute payments = some (.ok v) := by
    intro hcond
    have hv : validate payments = .ok () :=
      (validate_ok_iff payments).mpr (hex.mpr hcond)
    have hne : payments ≠ [] :=
      ne_nil_of_any (hex.mpr hcond).1
    have hsne : payments.mergeSort byDate ≠ [] := mergeSort_ne_nil _ hne
    cases hs : payments.mergeSort byDate with
    | nil => exact absurd hs hsne
    | cons q0 qrest => exact ⟨_, compute_eq_core hv hs⟩
  refine ⟨⟨fun herr => ?_, fun hnc => ?_⟩, hok⟩
  · intro hcond
    obtain ⟨v, hv⟩ := hok hcond
    rw [hv] at herr
    exact Except.noConfusion (Option.some.inj herr)
  · exact compute_of_validate_error
      ((validate_error_iff payments).mpr (fun hc => hnc (hex.mp hc)))

/-- Witness for C1 at a concrete two-payment input with one positive and
one negative amount. -/
theorem compute_err_iff_missing_sign_app :
    ∃ v : FP,
      compute [(⟨.fin 1, (0 : Int)⟩ : Payment FP Int),
        ⟨.fin (-1), (1 : Int)⟩] = some (.ok v) :=
  (compute_err_iff_missing_sign
    [(⟨.fin 1, (0 : Int)⟩ : Payment FP Int), ⟨.fin (-1), (1 : Int)⟩]).2
    (by decide)

theorem newtonIter_succ {F D : Type} [F64 F] [DateRepr D]
    (p0 : Payment F D) (ps : List (Payment F D)) (g : F) (n : Nat) :
    newtonIter p0 ps g (n + 1) = newton_step p0 ps (newtonIter p0 ps g n) :=
  rfl

theorem cwgPure_all_fail {F D : Type} [F64 F] [DateRepr D]
    (p0 : Payment F D) (ps : List (Payment F D)) (g : F) :
    ∀ (n k : Nat),
      (∀ j, k ≤ j → j < k + n →
        F64.ble (errAt p0 ps g j) F64.maxError ≠ true) →
      cwgPure p0 ps n (newtonIter p0 ps g k) (errAt p0 ps g k) =
        F64.nan := by
  intro n
  induction n with
  | zero => intro k _; rfl
  | succ n ih =>
    intro k hno
    have hk : F64.ble (errAt p0 ps g k) F64.maxError ≠ true :=
      hno k le_rfl (by omega)
    simp only [cwgPure, if_neg hk]
    have h1 : newton_step p0 ps (newtonIter p0 ps g k) =
        newtonIter p0 ps g (k + 1) := rfl
    have h2 :
        F64.abs (newtonIter p0 ps g (k + 1) - newtonIter p0 ps g k) =
        errAt p0 ps g (k + 1) := rfl
    rw [h1, h2]
    exact ih (k + 1) (fun j hj1 hj2 => hno j (by omega) (by omega))

theorem cwgPure_first_hit {F D : Type} [F64 F] [DateRepr D]
    (p0 : Payment F D) (ps : List (Payment F D)) (g : F) :
    ∀ (n k j0 : Nat), k ≤ j0 → j0 < k + n →
      F64.ble (errAt p0 ps g j0) F64.maxError = true →
      (∀ j, k ≤ j → j < j0 →
        F64.ble (errAt p0 ps g j) F64.maxError ≠ true) →
      cwgPure p0 ps n (newtonIter p0 ps g k) (errAt p0 ps g k) =
        newtonIter p0 ps g j0 := by
  intro n
  induction n with
  | zero => intro k j0 h1 h2; omega
  | succ n ih =>
    intro k j0 hk hlt hconv hno
    by_cases hke : j0 = k
    · subst hke
      simp only [cwgPure, if_pos hconv]
    · have hkfail : F64.ble (errAt p0 ps g k) F64.maxError ≠ true :=
        hno k le_rfl (by omega)
      simp only [cwgPure, if_neg hkfail]
      have h1 : newton_step p0 ps (newtonIter p0 ps g k) =
          newtonIter p0 ps g (k + 1) := rfl
      have h2 :
          F64.abs (newtonIter p0 ps g (k + 1) - newtonIter p0 ps g k) =
          errAt p0 ps g (k + 1) := rfl
      rw [h1, h2]
      exact ih (k + 1) j0 (by omega) (by omega) hconv
        (fun j hj1 hj2 => hno j (by omega) hj2)

/-- Claim C2: on a non-empty payment view the single-guess solver iterates
`r_next = r - NPV(r)/NPV'(r)` from `r_0 = guess`, returns `r_(n+1)` at the
first `n` with `|r_(n+1) - r_n| <= 1e-10` reachable within the budget of
50 loop iterations (so `n + 1 <= 49`), and returns NaN when the tolerance
is never reached within that budget. -/
theorem compute_with_guess_newton {F D : Type} [F64 F] [DateRepr D]
    [FloatLaws F] (p0 : Payment F D) (rest : List (Payment F D)) (g : F) :
    (∀ (h : ∃ j, 1 ≤ j ∧ j ≤ 49 ∧
        F64.ble (errAt p0 (p0 :: rest) g j) F64.maxError = true),
      compute_with_guess (p0 :: rest) g =
        some (newtonIter p0 (p0 :: rest) g (Nat.find h))) ∧
    ((∀ j, 1 ≤ j → j ≤ 49 →
        F64.ble (errAt p0 (p0 :: rest) g j) F64.maxError ≠ true) →
      compute_with_guess (p0 :: rest) g = some F64.nan) := by
  have h0 : F64.ble (errAt p0 (p0 :: rest) g 0) F64.maxError ≠ true := by
    show F64.ble F64.one F64.maxError ≠ true
    rw [FloatLaws.one_not_le_maxError]
    exact Bool.false_ne_true
  have hcwg : compute_with_guess (p0 :: rest) g =
      some (cwgPure p0 (p0 :: rest) MAX_COMPUTE_WITH_GUESS_ITERATIONS
        (newtonIter p0 (p0 :: rest) g 0) (errAt p0 (p0 :: rest) g 0)) :=
    compute_with_guess_cons p0 rest g
  constructor
  · intro h
    have hspec := Nat.find_spec h
    have hmin := fun j (hj : j < Nat.find h) => Nat.find_min h hj
    rw [hcwg, cwgPure_first_hit p0 (p0 :: rest) g
      MAX_COMPUTE_WITH_GUESS_ITERATIONS 0 (Nat.find h) (by omega)
      (by have := hspec.2.1; simp only [MAX_COMPUTE_WITH_GUESS_ITERATIONS]
          omega)
      hspec.2.2
      (fun j _ hj => ?_)]
    rcases Nat.eq_zero_or_pos j with hj0 | hj1
    · subst hj0; exact h0
    · intro hc
      exact hmin j hj ⟨hj1, by have := hspec.2.1; omega, hc⟩
  · intro hno
    rw [hcwg, cwgPure_all_fail p0 (p0 :: rest) g
      MAX_COMPUTE_WITH_GUESS_ITERATIONS 0 (fun j hj1 hj2 => ?_)]
    rcases Nat.eq_zero_or_pos j with hj0 | hj1
    · subst hj0; exact h0
    · exact hno j hj1 (by
        simp only [MAX_COMPUTE_WITH_GUESS_ITERATIONS] at hj2; omega)

/-- Witness for C2: a single-payment view on which Newton's method never
meets the tolerance, so the solver returns NaN. -/
theorem compute_with_guess_newton_app :
    compute_with_guess [(⟨.fin 1, (0 : Int)⟩ : Payment FP Int)]
      (.fin 0) = some F64.nan :=
  (compute_with_guess_newton (⟨.fin 1, (0 : Int)⟩ : Payment FP Int) []
    (.fin 0)).2 (by with_unfolding_all decide)

theorem cwgPure_not_inf {F D : Type} [F64 F] [DateRepr D] [FloatLaws F]
    (p0 : Payment F D) (ps : List (Payment F D)) :
    ∀ (n : Nat) (r e : F),
      (F64.ble e F64.maxError = true → F64.isInfinite r = false) →
      F64.isInfinite (cwgPure p0 ps n r e) = false := by
  intro n
  induction n with
  | zero => intro r e _; exact FloatLaws.isInfinite_nan
  | succ n ih =>
    intro r e hre
    by_cases h : F64.ble e F64.maxError = true
    · simp only [cwgPure, if_pos h]
      exact hre h
    · simp only [cwgPure, if_neg h]
      apply ih
      intro hconv
      by_contra hinf
      rw [Bool.not_eq_false] at hinf
      have hlaw := FloatLaws.inf_not_small
        (newton_step p0 ps r) r hinf
      rw [hconv] at hlaw
      exact Bool.noConfusion hlaw

theorem cwgVal_not_inf {F D : Type} [F64 F] [DateRepr D] [FloatLaws F]
    (p0 : Payment F D) (ps : List (Payment F D)) (g : F) :
    F64.isInfinite (cwgVal p0 ps g) = false := by
  apply cwgPure_not_inf
  intro h
  rw [FloatLaws.one_not_le_maxError] at h
  exact Bool.noConfusion h

theorem sweepCore_not_inf {F D : Type} [F64 F] [DateRepr D] [FloatLaws F]
    (p0 : Payment F D) (ps : List (Payment F D)) :
    ∀ (fuel : Nat) (g r : F), F64.isInfinite r = false →
      F64.isInfinite (sweepCore p0 ps fuel g r) = false := by
  intro fuel
  induction fuel with
  | zero => intro g r hr; exact hr
  | succ n ih =>
    intro g r hr
    by_cases h :
        (F64.blt g F64.one && (F64.isNan r || F64.isInfinite r)) = true
    · simp only [sweepCore, if_pos h]
      exact ih _ _ (cwgVal_not_inf p0 ps g)
    · simp only [sweepCore, if_neg h]
      exact hr

theorem compute_with_guess_nil {F D : Type} [F64 F] [DateRepr D]
    [FloatLaws F] (g : F) :
    compute_with_guess ([] : List (Payment F D)) g = none := by
  show cwgLoop [] MAX_COMPUTE_WITH_GUESS_ITERATIONS g F64.one = none
  simp [MAX_COMPUTE_WITH_GUESS_ITERATIONS, cwgLoop,
    FloatLaws.one_not_le_maxError, xirr, dxirr]

/-- Claim C9: the single-guess solver never returns an infinite value: any
value it returns is NaN or finite, and consequently `compute` never
returns `Ok` of an infinity. -/
theorem solver_never_infinite {F D : Type} [F64 F] [DateRepr D]
    [FloatLaws F] :
    (∀ (payments : List (Payment F D)) (g r : F),
        compute_with_guess payments g = some r →
        F64.isInfinite r = false) ∧
    (∀ (payments : List (Payment F D)) (v : F),
        compute payments = some (.ok v) → F64.isInfinite v = false) := by
  have part1 : ∀ (payments : List (Payment F D)) (g r : F),
      compute_with_guess payments g = some r →
      F64.isInfinite r = false := by
    intro payments g r h
    cases payments with
    | nil =>
      rw [compute_with_guess_nil] at h
      exact Option.noConfusion h
    | cons p0 rest =>
      rw [compute_with_guess_cons] at h
      rw [← Option.some.inj h]
      exact cwgVal_not_inf p0 (p0 :: rest) g
  refine ⟨part1, ?_⟩
  intro payments v h
  cases hv : validate payments with
  | error e =>
    rw [compute_of_validate_error hv] at h
    exact Except.noConfusion (Option.some.inj h)
  | ok u =>
    cases hs : payments.mergeSort byDate with
    | nil =>
      simp only [compute, hv, hs, compute_with_guess_nil] at h
      exact Option.noConfusion h
    | cons q0 qrest =>
      rw [compute_eq_core hv hs] at h
      rw [← Except.ok.inj (Option.some.inj h)]
      exact sweepCore_not_inf q0 (q0 :: qrest) 200 F64.sweepStart _
        (cwgVal_not_inf q0 (q0 :: qrest) F64.initialGuess)

/-- Witness for C9 at a concrete solver call that returns NaN. -/
theorem solver_never_infinite_app :
    F64.isInfinite (F64.nan : FP) = false :=
  (@solver_never_infinite FP Int _ _ _).1
    [(⟨.fin 1, (0 : Int)⟩ : Payment FP Int)] (.fin 0) F64.nan
    (by with_unfolding_all decide)

/-- Claim C8: `compute` never panics: it is total on every well-typed
input (the `payments[0]` indexing inside the NPV and derivative evaluators
is only reached on non-empty views, which validation guarantees). -/
theorem compute_never_panics {F D : Type} [F64 F] [DateRepr D] :
    (∀ payments : List (Payment F D),
        (compute payments).isSome = true) ∧
    (∀ (payments : List (Payment F D)) (r : F), payments ≠ [] →
        (xirr payments r).isSome = true ∧
        (dxirr payments r).isSome = true) := by
  constructor
  · intro payments
    cases hv : validate payments with
    | error e =>
      have : compute payments = some (.error ⟨⟩) :=
        compute_of_validate_error hv
      rw [this]
      rfl
    | ok u =>
      have hv' : validate payments = .ok () := hv
      have hpos := ((validate_ok_iff payments).mp hv').1
      have hne : payments ≠ [] := ne_nil_of_any hpos
      cases hs : payments.mergeSort byDate with
      | nil => exact absurd hs (mergeSort_ne_nil _ hne)
      | cons q0 qrest =>
        rw [compute_eq_core hv' hs]
        rfl
  · intro payments r hne
    cases payments with
    | nil => exact absurd rfl hne
    | cons p0 rest => exact ⟨rfl, rfl⟩

/-- Witness for C8 at a concrete non-empty collection. -/
theorem compute_never_panics_app :
    (xirr [(⟨.fin 1, (0 : Int)⟩ : Payment FP Int)] (.fin 0)).isSome =
        true ∧
      (dxirr [(⟨.fin 1, (0 : Int)⟩ : Payment FP Int)] (.fin 0)).isSome =
        true :=
  (@compute_never_panics FP Int _ _).2
    [(⟨.fin 1, (0 : Int)⟩ : Payment FP Int)] (.fin 0) (by simp)

/-- Claim C10: the validator treats a NaN amount as neither positive nor
negative: an all-NaN collection is rejected with `InvalidPaymentsError`,
and a NaN amount never satisfies either sign requirement. -/
theorem validate_nan_neither_sign {F D : Type} [F64 F] [DateRepr D]
    [FloatLaws F] :
    (∀ payments : List (Payment F D),
        (∀ p ∈ payments, F64.isNan p.amount = true) →
        compute payments = some (.error ⟨⟩)) ∧
    (∀ x : F, F64.isNan x = true →
        F64.blt F64.zero x = false ∧ F64.blt x F64.zero = false) := by
  constructor
  · intro payments hnan
    apply compute_of_validate_error
    rw [validate_error_iff]
    intro hc
    obtain ⟨p, hp, hpos⟩ := List.any_eq_true.mp hc.1
    rw [FloatLaws.nan_not_gt_zero p.amount (hnan p hp)] at hpos
    exact Bool.noConfusion hpos
  · intro x hx
    exact ⟨FloatLaws.nan_not_gt_zero x hx, FloatLaws.nan_not_lt_zero x hx⟩

/-- Witness for C10 at a concrete all-NaN collection. -/
theorem validate_nan_neither_sign_app :
    compute [(⟨.nan, (0 : Int)⟩ : Payment FP Int)] =
      some (.error ⟨⟩) :=
  (@validate_nan_neither_sign FP Int _ _ _).1
    [(⟨.nan, (0 : Int)⟩ : Payment FP Int)] (by decide)

theorem guessAt_succ {F : Type} [F64 F] (k : Nat) :
    (guessAt (k + 1) : F) = guessAt k + F64.sweepStep := by
  rw [guessAt, Function.iterate_succ_apply']
  rfl

theorem sweepCore_of_finite {F D : Type} [F64 F] [DateRepr D]
    (p0 : Payment F D) (ps : List (Payment F D)) :
    ∀ (fuel : Nat) (g r : F),
      (F64.isNan r || F64.isInfinite r) = false →
      sweepCore p0 ps fuel g r = r := by
  intro fuel
  cases fuel with
  | zero => intro g r _; rfl
  | succ n =>
    intro g r h
    have : (F64.blt g F64.one && (F64.isNan r || F64.isInfinite r)) =
        false := by rw [h, Bool.and_false]
    simp only [sweepCore, this]
    simp

theorem sweepCore_all_bad {F D : Type} [F64 F] [DateRepr D] [FloatLaws F]
    (p0 : Payment F D) (ps : List (Payment F D)) :
    ∀ (fuel k : Nat) (r : F), k + fuel = 200 → k ≤ 199 →
      (F64.isNan r || F64.isInfinite r) = true →
      (∀ j, k ≤ j → j < 199 →
        (F64.isNan (cwgVal p0 ps (guessAt j)) ||
          F64.isInfinite (cwgVal p0 ps (guessAt j))) = true) →
      sweepCore p0 ps fuel (guessAt k) r =
        if k = 199 then r else cwgVal p0 ps (guessAt 198) := by
  intro fuel
  induction fuel with
  | zero => intro k r hcnt hk _ _; omega
  | succ n ih =>
    intro k r hcnt hk hbad hall
    by_cases hke : k = 199
    · subst hke
      have hguard :
          (F64.blt (guessAt 199 : F) F64.one &&
            (F64.isNan r || F64.isInfinite r)) = false := by
        rw [FloatLaws.sweep_stop, Bool.false_and]
      simp only [sweepCore, hguard]
      simp
    · have hklt : k < 199 := by omega
      have hguard :
          (F64.blt (guessAt k : F) F64.one &&
            (F64.isNan r || F64.isInfinite r)) = true := by
        rw [FloatLaws.sweep_go k hklt, hbad, Bool.and_true]
      simp only [sweepCore, hguard, if_pos]
      rw [← guessAt_succ]
      rw [ih (k + 1) _ (by omega) (by omega) (hall k le_rfl hklt)
        (fun j hj1 hj2 => hall j (by omega) hj2)]
      by_cases hk198 : k + 1 = 199
      · have : k = 198 := by omega
        subst this
        simp
      · simp only [if_neg hk198, if_neg hke]

theorem sweepCore_first_good {F D : Type} [F64 F] [DateRepr D]
    [FloatLaws F] (p0 : Payment F D) (ps : List (Payment F D)) :
    ∀ (fuel k : Nat) (r : F), k + fuel = 200 →
      (F64.isNan r || F64.isInfinite r) = true →
      ∀ j0, k ≤ j0 → j0 < 199 →
      (F64.isNan (cwgVal p0 ps (guessAt j0)) ||
        F64.isInfinite (cwgVal p0 ps (guessAt j0))) = false →
      (∀ j, k ≤ j → j < j0 →
        (F64.isNan (cwgVal p0 ps (guessAt j)) ||
          F64.isInfinite (cwgVal p0 ps (guessAt j))) = true) →
      sweepCore p0 ps fuel (guessAt k) r = cwgVal p0 ps (guessAt j0) := by
  intro fuel
  induction fuel with
  | zero => intro k r hcnt _ j0 hk hj0 _ _; omega
  | succ n ih =>
    intro k r hcnt hbad j0 hk hj0 hgood hprev
    have hklt : k < 199 := by omega
    have hguard :
        (F64.blt (guessAt k : F) F64.one &&
          (F64.isNan r || F64.isInfinite r)) = true := by
      rw [FloatLaws.sweep_go k hklt, hbad, Bool.and_true]
    simp only [sweepCore, hguard, if_pos]
    rw [← guessAt_succ]
    by_cases hke : j0 = k
    · subst hke
      exact sweepCore_of_finite p0 ps n _ _ hgood
    · exact ih (k + 1) _ (by omega)
        (hprev k le_rfl (by omega)) j0 (by omega) hj0 hgood
        (fun j hj1 hj2 => hprev j (by omega) hj2)

/-- Claim C3: on a valid input `compute` first solves with guess 0.1; it
returns that result if it is finite and non-NaN, otherwise it sweeps
guesses `-0.99 + k * 0.01` (below 1.0) and returns the result of the first
guess whose solve is finite and non-NaN, and when every swept guess fails
it returns `Ok` of the last (199th) sweep result, which is NaN. -/
theorem compute_guess_fallback {F D : Type} [F64 F] [DateRepr D]
    [FloatLaws F] {payments : List (Payment F D)} {q0 : Payment F D}
    {qrest : List (Payment F D)}
    (hv : validate payments = .ok ())
    (hs : payments.mergeSort byDate = q0 :: qrest) :
    ((F64.isNan (cwgVal q0 (q0 :: qrest) F64.initialGuess) ||
        F64.isInfinite (cwgVal q0 (q0 :: qrest) F64.initialGuess)) =
          false →
      compute payments =
        some (.ok (cwgVal q0 (q0 :: qrest) F64.initialGuess))) ∧
    ((F64.isNan (cwgVal q0 (q0 :: qrest) F64.initialGuess) ||
        F64.isInfinite (cwgVal q0 (q0 :: qrest) F64.initialGuess)) =
          true →
      ∀ (h : ∃ k, k < 199 ∧
        (F64.isNan (cwgVal q0 (q0 :: qrest) (guessAt k)) ||
          F64.isInfinite (cwgVal q0 (q0 :: qrest) (guessAt k))) = false),
      compute payments =
        some (.ok (cwgVal q0 (q0 :: qrest) (guessAt (Nat.find h))))) ∧
    ((F64.isNan (cwgVal q0 (q0 :: qrest) F64.initialGuess) ||
        F64.isInfinite (cwgVal q0 (q0 :: qrest) F64.initialGuess)) =
          true →
      (∀ k, k < 199 →
        (F64.isNan (cwgVal q0 (q0 :: qrest) (guessAt k)) ||
          F64.isInfinite (cwgVal q0 (q0 :: qrest) (guessAt k))) = true) →
      compute payments =
        some (.ok (cwgVal q0 (q0 :: qrest) (guessAt 198))) ∧
      F64.isNan (cwgVal q0 (q0 :: qrest) (guessAt 198)) = true) := by
  have hcore := compute_eq_core hv hs
  have hstart : (F64.sweepStart : F) = guessAt 0 := rfl
  refine ⟨?_, ?_, ?_⟩
  · intro hfin
    rw [hcore, sweepCore_of_finite q0 (q0 :: qrest) 200 _ _ hfin]
  · intro hbad h
    have hspec := Nat.find_spec h
    rw [hcore, hstart, sweepCore_first_good q0 (q0 :: qrest) 200 0 _
      (by omega) hbad (Nat.find h) (by omega) hspec.1 hspec.2
      (fun j _ hj => ?_)]
    have hmin := Nat.find_min h hj
    rcases hb : (F64.isNan (cwgVal q0 (q0 :: qrest) (guessAt j)) ||
        F64.isInfinite (cwgVal q0 (q0 :: qrest) (guessAt j))) with _ | _
    · exact absurd ⟨by omega, hb⟩ hmin
    · rfl
  · intro hbad hall
    have hres : compute payments =
        some (.ok (cwgVal q0 (q0 :: qrest) (guessAt 198))) := by
      rw [hcore, hstart, sweepCore_all_bad q0 (q0 :: qrest) 200 0 _
        (by omega) (by omega) hbad (fun j _ hj => hall j hj)]
      simp
    refine ⟨hres, ?_⟩
    have hb198 := hall 198 (by omega)
    have hni := cwgVal_not_inf q0 (q0 :: qrest) (guessAt 198 : F)
    rw [hni, Bool.or_false] at hb198
    exact hb198

/-- Witness for C3 at a concrete valid input whose initial solve with
guess 0.1 converges. -/
theorem compute_guess_fallback_app :
    compute [(⟨.fin (-1), (0 : Int)⟩ : Payment FP Int),
        ⟨.fin 2, (365 : Int)⟩] =
      some (.ok (cwgVal (⟨.fin (-1), (0 : Int)⟩ : Payment FP Int)
        [⟨.fin (-1), (0 : Int)⟩, ⟨.fin 2, (365 : Int)⟩]
        F64.initialGuess)) :=
  (compute_guess_fallback (by with_unfolding_all rfl)
    (List.mergeSort_of_sorted (by decide))).1
    (by with_unfolding_all decide)

theorem foldl_min_date {F D : Type} [DateRepr D] :
    ∀ (l : List (Payment F D)) (d : D), (∀ p ∈ l, d ≤ p.date) →
      l.foldl (fun d p => min d p.date) d = d := by
  intro l
  induction l with
  | nil => intro d _; rfl
  | cons q qs ih =>
    intro d h
    simp only [List.foldl_cons]
    rw [min_eq_left (h q (by simp))]
    exact ih d (fun p hp => h p (by simp [hp]))

theorem earliest_of_sorted {F D : Type} [DateRepr D]
    {p0 : Payment F D} {rest : List (Payment F D)}
    (hs : (p0 :: rest).Pairwise fun p q => p.date ≤ q.date) :
    earliest p0 rest = p0.date :=
  foldl_min_date rest p0.date
    (fun _p hp => List.rel_of_pairwise_cons hs hp)

theorem foldl_sub_eq_add_neg {F : Type} [F64 F] [FloatLaws F] {α : Type}
    (f : α → F) :
    ∀ (l : List α) (a : F),
      l.foldl (fun acc x => acc - f x) a =
        l.foldl (fun acc x => acc + -f x) a := by
  intro l
  induction l with
  | nil => intro a; rfl
  | cons x xs ih =>
    intro a
    simp only [List.foldl_cons]
    rw [FloatLaws.sub_eq_add_neg]
    exact ih _

/-- Claim C4: on a date-ascending non-empty view, `xirr` computes the
spec's NPV sum with exponents measured from the earliest payment's date
over 365, and the earliest payment contributes its full amount
undiscounted. -/
theorem xirr_matches_spec_npv {F D : Type} [F64 F] [DateRepr D]
    [FloatLaws F] (p0 : Payment F D) (rest : List (Payment F D)) (r : F)
    (hs : (p0 :: rest).Pairwise fun p q => p.date ≤ q.date) :
    xirr (p0 :: rest) r =
      some (npvSpec (earliest p0 rest) (p0 :: rest) r) ∧
    p0.amount / F64.powf (F64.one + r) (get_exp p0 p0) = p0.amount := by
  constructor
  · rw [xirr_cons, earliest_of_sorted hs]
    rfl
  · rw [get_exp, DateRepr.days_since_self, FloatLaws.ofInt_zero,
      FloatLaws.zero_div_d365, FloatLaws.powf_zero, FloatLaws.div_one]

/-- Witness for C4 at a concrete sorted two-payment view. -/
theorem xirr_matches_spec_npv_app :
    xirr [(⟨.fin (-1), (0 : Int)⟩ : Payment FP Int),
        ⟨.fin 2, (365 : Int)⟩] (.fin 0) =
      some (npvSpec
        (earliest (⟨.fin (-1), (0 : Int)⟩ : Payment FP Int)
          [⟨.fin 2, (365 : Int)⟩])
        [⟨.fin (-1), (0 : Int)⟩, ⟨.fin 2, (365 : Int)⟩] (.fin 0)) ∧
    (FP.fin (-1) : FP) / F64.powf (F64.one + .fin 0)
        (get_exp (⟨.fin (-1), (0 : Int)⟩ : Payment FP Int)
          ⟨.fin (-1), (0 : Int)⟩) = .fin (-1) :=
  xirr_matches_spec_npv (⟨.fin (-1), (0 : Int)⟩ : Payment FP Int)
    [⟨.fin 2, (365 : Int)⟩] (.fin 0) (by decide)

/-- Claim C5: on a date-ascending non-empty view, `dxirr` computes the
spec's derivative sum `Σ -amount_i * t_i / (1 + r)^(t_i + 1)` with the
same per-payment exponents as the NPV evaluator. -/
theorem dxirr_matches_spec_derivative {F D : Type} [F64 F] [DateRepr D]
    [FloatLaws F] (p0 : Payment F D) (rest : List (Payment F D)) (r : F)
    (hs : (p0 :: rest).Pairwise fun p q => p.date ≤ q.date) :
    dxirr (p0 :: rest) r =
      some (dnpvSpec (earliest p0 rest) (p0 :: rest) r) := by
  rw [dxirr_cons, earliest_of_sorted hs]
  exact congrArg some
    (foldl_sub_eq_add_neg
      (fun p : Payment F D =>
        p.amount * get_exp p p0 /
          F64.powf (F64.one + r) (get_exp p p0 + F64.one))
      (p0 :: rest) F64.zero)

/-- Witness for C5 at a concrete sorted two-payment view. -/
theorem dxirr_matches_spec_derivative_app :
    dxirr [(⟨.fin (-1), (0 : Int)⟩ : Payment FP Int),
        ⟨.fin 2, (365 : Int)⟩] (.fin 0) =
      some (dnpvSpec
        (earliest (⟨.fin (-1), (0 : Int)⟩ : Payment FP Int)
          [⟨.fin 2, (365 : Int)⟩])
        [⟨.fin (-1), (0 : Int)⟩, ⟨.fin 2, (365 : Int)⟩] (.fin 0)) :=
  dxirr_matches_spec_derivative (⟨.fin (-1), (0 : Int)⟩ : Payment FP Int)
    [⟨.fin 2, (365 : Int)⟩] (.fin 0) (by decide)

theorem cwgLoopC_fst {F D : Type} [F64 F] [DateRepr D]
    (payments : List (Payment F D)) :
    ∀ (n : Nat) (r e : F),
      (cwgLoopC payments n r e).1 = cwgLoop payments n r e := by
  intro n
  induction n with
  | zero => intro r e; rfl
  | succ n ih =>
    intro r e
    by_cases h : F64.ble e F64.maxError = true
    · simp only [cwgLoopC, cwgLoop, if_pos h]
    · simp only [cwgLoopC, cwgLoop, if_neg h]
      cases hx : xirr payments r with
      | none => rfl
      | some x =>
        cases hdx : dxirr payments r with
        | none => rfl
        | some dx => exact ih _ _

theorem cwgLoopC_count_le {F D : Type} [F64 F] [DateRepr D]
    (payments : List (Payment F D)) :
    ∀ (n : Nat) (r e : F), (cwgLoopC payments n r e).2 ≤ n := by
  intro n
  induction n with
  | zero => intro r e; exact le_rfl
  | succ n ih =>
    intro r e
    by_cases h : F64.ble e F64.maxError = true
    · simp only [cwgLoopC, if_pos h]
      omega
    · simp only [cwgLoopC, if_neg h]
      cases hx : xirr payments r with
      | none => simp
      | some x =>
        cases hdx : dxirr payments r with
        | none => simp
        | some dx =>
          simp only []
          have := ih (r - x / dx)
            (F64.abs (r - x / dx - r))
          omega

theorem sweepLoopC_fst {F D : Type} [F64 F] [DateRepr D]
    (sorted : List (Payment F D)) :
    ∀ (fuel : Nat) (g r : F),
      (sweepLoopC sorted fuel g r).1 = sweepLoop sorted fuel g r := by
  intro fuel
  induction fuel with
  | zero => intro g r; rfl
  | succ n ih =>
    intro g r
    by_cases h :
        (F64.blt g F64.one && (F64.isNan r || F64.isInfinite r)) = true
    · simp only [sweepLoopC, sweepLoop, if_pos h]
      cases hc : compute_with_guess sorted g with
      | none => rfl
      | some v => exact ih _ _
    · simp only [sweepLoopC, sweepLoop, if_neg h]

theorem sweepLoopC_count_le {F D : Type} [F64 F] [DateRepr D]
    [FloatLaws F] (sorted : List (Payment F D)) :
    ∀ (fuel k : Nat) (r : F), k + fuel = 200 →
      (sweepLoopC sorted fuel (guessAt k) r).2 ≤ 199 - k := by
  intro fuel
  induction fuel with
  | zero => intro k r _; exact Nat.zero_le _
  | succ n ih =>
    intro k r hcnt
    by_cases hke : k = 199
    · subst hke
      have hguard :
          (F64.blt (guessAt 199 : F) F64.one &&
            (F64.isNan r || F64.isInfinite r)) = false := by
        rw [FloatLaws.sweep_stop, Bool.false_and]
      simp only [sweepLoopC, hguard]
      simp
    · have hklt : k < 199 := by omega
      by_cases h : (F64.blt (guessAt k : F) F64.one &&
          (F64.isNan r || F64.isInfinite r)) = true
      · simp only [sweepLoopC, if_pos h]
        cases hc : compute_with_guess sorted (guessAt k) with
        | none => simp; omega
        | some v =>
          simp only []
          have := ih (k + 1) v (by omega)
          rw [guessAt_succ] at this
          omega
      · simp only [sweepLoopC, if_neg h]
        simp

theorem computeC_fst {F D : Type} [F64 F] [DateRepr D]
    (payments : List (Payment F D)) :
    (computeC payments).1 = compute payments := by
  cases hv : validate payments with
  | error e => simp only [computeC, compute, hv]
  | ok u =>
    simp only [computeC, compute, hv]
    cases hc : compute_with_guess (payments.mergeSort byDate)
        F64.initialGuess with
    | none => rfl
    | some rate =>
      simp only []
      rw [← sweepLoopC_fst]
      cases hq : (sweepLoopC (payments.mergeSort byDate) 200
          F64.sweepStart rate).1 with
      | none => rfl
      | some v => rfl

theorem computeC_count_le {F D : Type} [F64 F] [DateRepr D] [FloatLaws F]
    (payments : List (Payment F D)) :
    (computeC payments).2 ≤ 200 := by
  cases hv : validate payments with
  | error e => simp [computeC, hv]
  | ok u =>
    simp only [computeC, hv]
    cases hc : compute_with_guess (payments.mergeSort byDate)
        F64.initialGuess with
    | none => simp
    | some rate =>
      simp only []
      have hstart : (F64.sweepStart : F) = guessAt 0 := rfl
      have := sweepLoopC_count_le (payments.mergeSort byDate) 200 0 rate
        (by omega)
      rw [← hstart] at this
      cases hq : (sweepLoopC (payments.mergeSort byDate) 200
          F64.sweepStart rate).1 <;> simp <;> omega

/-- Claim C7: one `compute` call makes at most 200 solver invocations
(1 initial + at most 199 swept guesses), and each invocation performs at
most 50 Newton iterations; the instrumented counters refine the original
functions. -/
theorem compute_work_bounded {F D : Type} [F64 F] [DateRepr D]
    [FloatLaws F] :
    (∀ payments : List (Payment F D),
        (computeC payments).1 = compute payments ∧
        (computeC payments).2 ≤ 200) ∧
    (∀ (payments : List (Payment F D)) (g : F),
        (compute_with_guessC payments g).1 =
          compute_with_guess payments g ∧
        (compute_with_guessC payments g).2 ≤
          MAX_COMPUTE_WITH_GUESS_ITERATIONS) :=
  ⟨fun payments => ⟨computeC_fst payments, computeC_count_le payments⟩,
    fun payments g =>
      ⟨cwgLoopC_fst payments MAX_COMPUTE_WITH_GUESS_ITERATIONS g F64.one,
        cwgLoopC_count_le payments MAX_COMPUTE_WITH_GUESS_ITERATIONS g
          F64.one⟩⟩

/-- Witness for C7 at a concrete input. -/
theorem compute_work_bounded_app :
    (computeC [(⟨.fin 1, (0 : Int)⟩ : Payment FP Int),
      ⟨.fin (-1), (1 : Int)⟩]).2 ≤ 200 :=
  ((@compute_work_bounded FP Int _ _ _).1
    [(⟨.fin 1, (0 : Int)⟩ : Payment FP Int), ⟨.fin (-1), (1 : Int)⟩]).2


theorem byDate_trans {F D : Type} [F64 F] [DateRepr D] :
    ∀ a b c : Payment F D,
      byDate a b = true → byDate b c = true → byDate a c = true :=
  fun _ _ _ hab hbc =>
    decide_eq_true (le_trans (of_decide_eq_true hab) (of_decide_eq_true hbc))

theorem byDate_total {F D : Type} [F64 F] [DateRepr D] :
    ∀ a b : Payment F D, (byDate a b || byDate b a) = true := by
  intro a b
  rcases le_total a.date b.date with hab | hba
  · rw [byDate, decide_eq_true hab, Bool.true_or]
  · rw [byDate, byDate, decide_eq_true hba, Bool.or_true]

theorem perm_eq_of_pairwise_asymm {α : Type} {R : α → α → Prop}
    (hasymm : ∀ a b, R a b → R b a → False) :
    ∀ l1 l2 : List α, l1.Perm l2 → l1.Pairwise R → l2.Pairwise R →
      l1 = l2 := by
  intro l1
  induction l1 with
  | nil =>
    intro l2 hp _ _
    exact (hp.symm.eq_nil).symm
  | cons x t1 ih =>
    intro l2 hp h1 h2
    cases l2 with
    | nil => exact absurd hp.eq_nil (by simp)
    | cons y t2 =>
      have hxy : x = y := by
        by_contra hne
        have hx2 : x ∈ y :: t2 := hp.mem_iff.mp (List.mem_cons_self x t1)
        have hy1 : y ∈ x :: t1 := hp.mem_iff.mpr (List.mem_cons_self y t2)
        rcases List.mem_cons.mp hx2 with heq | hx2'
        · exact hne heq
        rcases List.mem_cons.mp hy1 with heq | hy1'
        · exact hne heq.symm
        exact hasymm x y (List.rel_of_pairwise_cons h1 hy1')
          (List.rel_of_pairwise_cons h2 hx2')
      subst hxy
      rw [ih t2 hp.cons_inv h1.of_cons h2.of_cons]

theorem mergeSort_eq_of_perm_of_distinct {F D : Type} [F64 F] [DateRepr D]
    {l1 l2 : List (Payment F D)} (h : l1.Perm l2)
    (hdist : l1.Pairwise fun p q => p.date ≠ q.date) :
    l1.mergeSort byDate = l2.mergeSort byDate := by
  have hS : (l1.mergeSort byDate).Perm (l2.mergeSort byDate) :=
    ((List.mergeSort_perm l1 byDate).trans h).trans
      (List.mergeSort_perm l2 byDate).symm
  have hd1 : (l1.mergeSort byDate).Pairwise
      (fun p q : Payment F D => p.date ≠ q.date) :=
    ((List.mergeSort_perm l1 byDate).pairwise_iff
      (fun hxy => hxy.symm)).mpr hdist
  have hd2 : (l2.mergeSort byDate).Pairwise
      (fun p q : Payment F D => p.date ≠ q.date) :=
    (hS.pairwise_iff (fun hxy => hxy.symm)).mp hd1
  have hs1 := List.sorted_mergeSort byDate_trans byDate_total l1
  have hs2 := List.sorted_mergeSort byDate_trans byDate_total l2
  have hstrict1 : (l1.mergeSort byDate).Pairwise
      (fun p q : Payment F D => p.date < q.date) :=
    (hs1.and hd1).imp
      (fun hab => lt_of_le_of_ne (of_decide_eq_true hab.1) hab.2)
  have hstrict2 : (l2.mergeSort byDate).Pairwise
      (fun p q : Payment F D => p.date < q.date) :=
    (hs2.and hd2).imp
      (fun hab => lt_of_le_of_ne (of_decide_eq_true hab.1) hab.2)
  exact perm_eq_of_pairwise_asymm
    (fun a b hab hba => absurd hba (lt_asymm hab)) _ _ hS hstrict1
    hstrict2

/-- Counterexample to C6 as stated: over `FR`, whose addition rounds
exactly as binary64 does in the binade [2^53, 2^54), swapping the two
same-date payments `-2^53` and `1` is a permutation of the input that
changes the result of `compute` (the NPV fold sums in the stable sort's
tie order, and `(2^53 + 1) + -2^53` is `0` while `(2^53 + -2^53) + 1` is
`1`, exactly as in `f64`). -/
theorem compute_permutation_counterexample :
    tiePermA.Perm tiePermB ∧ compute tiePermA ≠ compute tiePermB := by
  have hvA : validate tiePermA = .ok () := by with_unfolding_all rfl
  have hvB : validate tiePermB = .ok () := by with_unfolding_all rfl
  have hsA : tiePermA.mergeSort byDate = tiePermA :=
    List.mergeSort_of_sorted (by decide)
  have hsB : tiePermB.mergeSort byDate = tiePermB :=
    List.mergeSort_of_sorted (by decide)
  have hA := compute_eq_core hvA hsA
  have hB := compute_eq_core hvB hsB
  constructor
  · exact List.Perm.cons _ (List.Perm.swap _ _ _)
  · rw [hA, hB]
    intro h
    exact absurd (Except.ok.inj (Option.some.inj h))
      (by with_unfolding_all decide)

/-- Claim C6, amended: for every input collection whose payments have
pairwise-distinct dates, permuting the collection before calling
`compute` yields the same result (the stable sort of any permutation is
then the same list, so the result is identical with no assumption on the
arithmetic). -/
theorem compute_permutation_invariant_distinct {F D : Type} [F64 F]
    [DateRepr D] {l1 l2 : List (Payment F D)} (h : l1.Perm l2)
    (hdist : l1.Pairwise fun p q => p.date ≠ q.date) :
    compute l1 = compute l2 := by
  have hval : validate l1 = validate l2 := validate_perm h
  have hS := mergeSort_eq_of_perm_of_distinct h hdist
  simp only [compute, hval, hS]

/-- Witness for the amended C6 at a concrete distinct-date permutation. -/
theorem compute_permutation_invariant_distinct_app :
    compute [(⟨FP.fin 1, (0 : Int)⟩ : Payment FP Int),
        ⟨FP.fin (-1), 365⟩] =
      compute [(⟨FP.fin (-1), (365 : Int)⟩ : Payment FP Int),
        ⟨FP.fin 1, 0⟩] :=
  compute_permutation_invariant_distinct
    (List.Perm.swap (⟨FP.fin (-1), (365 : Int)⟩ : Payment FP Int)
      (⟨FP.fin 1, (0 : Int)⟩ : Payment FP Int) [])
    (by decide)
